import Mathlib

/-!
A shallow embedding of the Bloom filter implementation in `src/lib.rs`
(crate `bloom_filter`, struct `BloomFilter<T>`), with theorems settling
the specification claims about it.

Modelling conventions:
* `u64` / `u32` / `usize` values are `ℕ`, with an explicit `% 2 ^ 64`
  wherever the source relies on wrapping 64-bit arithmetic
  (`wrapping_add`, `wrapping_mul`, `Hasher::finish`).
* The `f64` arithmetic of the sizing functions is modelled in exact real
  arithmetic (`ℝ`, `Real.log`); the `.ceil() as usize` / `as u32` casts
  are `Nat.ceil`, which saturates at `0` on non-positive values exactly
  as Rust's float-to-unsigned `as` cast does.
* The only panic in the code is the remainder-by-zero in `get_index`
  when `optimal_m = 0`; a panicking call is `Option.none`.  Methods that
  take `&mut self` pass the state explicitly and return the post-state.
* `std::collections::hash_map::DefaultHasher` is modelled as the random
  key material it was built with (`RandomState::new().build_hasher()`)
  plus the stream of data written into it so far; the SipHash-1-3
  finalisation is an arbitrary parameter `sip : ℕ → List ℕ → ℕ`, and
  `item.hash(hasher)` feeds the stream `encode item` into the hasher,
  for an arbitrary encoding `encode : T → List ℕ` of the `Hash` impl.
-/

namespace BloomFilterSpec

/-- The clonable state of a `std::collections::hash_map::DefaultHasher`:
the random key material it was seeded with and the stream of data written
into it so far. -/
structure DefaultHasher where
  seed : ℕ
  written : List ℕ
deriving DecidableEq

/-- `Hasher::write` (reached through `Hash::hash`): feed data into the
hasher, extending the written stream. -/
def DefaultHasher.write (h : DefaultHasher) (data : List ℕ) : DefaultHasher :=
  ⟨h.seed, h.written ++ data⟩

/-- `Hasher::finish`: the 64-bit digest of everything written so far.  The
SipHash-1-3 compression is the abstract parameter `sip`; the `% 2 ^ 64`
records that the digest is a `u64`. -/
def DefaultHasher.finish (sip : ℕ → List ℕ → ℕ) (h : DefaultHasher) : ℕ :=
  sip h.seed h.written % 2 ^ 64

/-- The struct `BloomFilter<T>`: the bit array, the two sizing parameters
and the two base hashers (the source stores them as `hashers:
[DefaultHasher; 2]`; here they are two fields).  The element type `T` is
phantom, as in the source (`_marker: PhantomData<T>`). -/
structure BloomFilter (T : Type) where
  bitmap : List Bool
  optimal_m : ℕ
  optimal_k : ℕ
  hasher1 : DefaultHasher
  hasher2 : DefaultHasher
deriving DecidableEq

/-- The constant `LN2_SQUARED = LN_2 * LN_2`, in exact reals. -/
noncomputable def LN2_SQUARED : ℝ := Real.log 2 * Real.log 2

/-- `BloomFilter::bitmap_size`:
`((-1.0f64 * items_count as f64 * fp_rate.ln()) / LN2_SQUARED).ceil() as usize`,
in exact real arithmetic.  `Nat.ceil` models `.ceil() as usize`: negative
values saturate to `0`. -/
noncomputable def bitmap_size (items_count : ℕ) (fp_rate : ℝ) : ℕ :=
  ⌈(-1 * (items_count : ℝ) * Real.log fp_rate) / LN2_SQUARED⌉₊

/-- `BloomFilter::optimal_k`:
`((-1.0f64 * fp_rate.ln()) / LN_2).ceil() as u32`. -/
noncomputable def optimal_k (fp_rate : ℝ) : ℕ :=
  ⌈(-1 * Real.log fp_rate) / Real.log 2⌉₊

/-- `BloomFilter::new(items_count, fp_rate)`: computes the two sizing
parameters, allocates the zeroed bit array (`bitvec![0; optimal_m]`) and
builds the two base hashers from fresh `RandomState`s, represented by the
two seeds. -/
noncomputable def new (T : Type) (items_count : ℕ) (fp_rate : ℝ)
    (seed1 seed2 : ℕ) : BloomFilter T :=
  ⟨List.replicate (bitmap_size items_count fp_rate) false,
    bitmap_size items_count fp_rate, optimal_k fp_rate,
    ⟨seed1, []⟩, ⟨seed2, []⟩⟩

variable {T : Type}

/-- `BloomFilter::hash_kernel`: clones the two stored hashers, writes the
item into the clones and finishes them; the two digests are returned
together with the post-state of the filter, which still holds the original
(unwritten) hashers — the mutated clones are dropped. -/
def hash_kernel (sip : ℕ → List ℕ → ℕ) (encode : T → List ℕ)
    (f : BloomFilter T) (item : T) : (ℕ × ℕ) × BloomFilter T :=
  let hasher1 := f.hasher1
  let hasher2 := f.hasher2
  let hash1 := (hasher1.write (encode item)).finish sip
  let hash2 := (hasher2.write (encode item)).finish sip
  ((hash1, hash2), f)

/-- The pair `(h1, h2)` that `hash_kernel` returns, as a value. -/
def kernelPair (sip : ℕ → List ℕ → ℕ) (encode : T → List ℕ)
    (f : BloomFilter T) (item : T) : ℕ × ℕ :=
  (hash_kernel sip encode f item).1

/-- `BloomFilter::get_index`:
`(h1.wrapping_add(k_i.wrapping_mul(h2)) % self.optimal_m) as usize`.
`m` stands for `self.optimal_m`.  The `u64` remainder panics when
`m = 0` (`none`); the two wrapping operations are the explicit
`% 2 ^ 64`. -/
def get_index (m h1 h2 k_i : ℕ) : Option ℕ :=
  if m = 0 then none
  else some (((h1 + (k_i * h2) % 2 ^ 64) % 2 ^ 64) % m)

/-- The value `get_index` computes when `optimal_m ≠ 0`. -/
def pos (m h1 h2 k_i : ℕ) : ℕ :=
  ((h1 + (k_i * h2) % 2 ^ 64) % 2 ^ 64) % m

/-- The loop of `insert`: for `count` further values starting at `k_i`,
derive the index and run `self.bitmap.set(index, true)`. -/
def insertAux (m h1 h2 : ℕ) : List Bool → ℕ → ℕ → Option (List Bool)
  | bm, _, 0 => some bm
  | bm, k_i, count + 1 =>
    match get_index m h1 h2 k_i with
    | none => none
    | some index => insertAux m h1 h2 (bm.set index true) (k_i + 1) count

/-- `BloomFilter::insert`: hash the item once through `hash_kernel`, then
set the `optimal_k` derived bits.  `none` is the remainder-by-zero panic,
reachable only when `optimal_m = 0` and `optimal_k ≥ 1`. -/
def insert (sip : ℕ → List ℕ → ℕ) (encode : T → List ℕ)
    (f : BloomFilter T) (item : T) : Option (BloomFilter T) :=
  match hash_kernel sip encode f item with
  | ((h1, h2), f) =>
    match insertAux f.optimal_m h1 h2 f.bitmap 0 f.optimal_k with
    | none => none
    | some bm => some ⟨bm, f.optimal_m, f.optimal_k, f.hasher1, f.hasher2⟩

/-- The loop of `contains`: for `count` further values starting at `k_i`,
derive the index and look the bit up with `self.bitmap.get(index)`.  The
source matches on the resulting `Option<&bool>`: a `Some(false)` bit makes
the method return `false` at once, while a `Some(true)` bit and the `None`
arm (out-of-range index) both fall through to the next iteration — which
is exactly the test `bm[index]? = some false`. -/
def containsAux (m h1 h2 : ℕ) (bm : List Bool) : ℕ → ℕ → Option Bool
  | _, 0 => some true
  | k_i, count + 1 =>
    match get_index m h1 h2 k_i with
    | none => none
    | some index =>
      if bm[index]? = some false then some false
      else containsAux m h1 h2 bm (k_i + 1) count

/-- `BloomFilter::contains` (takes `&mut self`): hash the item, check all
`optimal_k` derived bits; the boolean result is returned together with the
post-state of the filter. -/
def contains (sip : ℕ → List ℕ → ℕ) (encode : T → List ℕ)
    (f : BloomFilter T) (item : T) : Option (Bool × BloomFilter T) :=
  match hash_kernel sip encode f item with
  | ((h1, h2), f) =>
    match containsAux f.optimal_m h1 h2 f.bitmap 0 f.optimal_k with
    | none => none
    | some b => some (b, f)

/-- A sequence of insertions, run left to right. -/
def insertAll (sip : ℕ → List ℕ → ℕ) (encode : T → List ℕ) :
    BloomFilter T → List T → Option (BloomFilter T)
  | f, [] => some f
  | f, e :: es =>
    match insert sip encode f e with
    | none => none
    | some f2 => insertAll sip encode f2 es

/-- One API call on a filter: an insertion or a membership query. -/
inductive FilterOp (T : Type) where
  | ins (item : T)
  | query (item : T)

/-- Run a sequence of API calls, keeping the filter state. -/
def runOps (sip : ℕ → List ℕ → ℕ) (encode : T → List ℕ) :
    BloomFilter T → List (FilterOp T) → Option (BloomFilter T)
  | f, [] => some f
  | f, FilterOp.ins e :: ops =>
    match insert sip encode f e with
    | none => none
    | some f2 => runOps sip encode f2 ops
  | f, FilterOp.query e :: ops =>
    match contains sip encode f e with
    | none => none
    | some (_, f2) => runOps sip encode f2 ops

/-- `n` successive calls of `insert` with the same item. -/
def insertNTimes (sip : ℕ → List ℕ → ℕ) (encode : T → List ℕ) :
    BloomFilter T → T → ℕ → Option (BloomFilter T)
  | f, _, 0 => some f
  | f, e, n + 1 =>
    match insert sip encode f e with
    | none => none
    | some f2 => insertNTimes sip encode f2 e n

/-- Well-formedness: the bit array really has `optimal_m` bits, which is
how `new` builds every filter and `insert` preserves it. -/
def Wf (f : BloomFilter T) : Prop := f.bitmap.length = f.optimal_m

/-- A concrete stand-in for the SipHash-1-3 finalisation, used for
concrete runs of the model. -/
def sipExample : ℕ → List ℕ → ℕ := fun seed data => seed + data.sum

/-- A concrete item encoding (a `Hash` impl) for `ℕ` items. -/
def encExample : ℕ → List ℕ := fun n => [n]

/-! ### Helper lemmas about the index computation -/

theorem get_index_eq_pos {m : ℕ} (hm : m ≠ 0) (h1 h2 k_i : ℕ) :
    get_index m h1 h2 k_i = some (pos m h1 h2 k_i) := by
  simp [get_index, pos, hm]

theorem pos_lt {m : ℕ} (hm : 0 < m) (h1 h2 k_i : ℕ) : pos m h1 h2 k_i < m :=
  Nat.mod_lt _ hm

theorem pos_eq_wrap (m h1 h2 k_i : ℕ) :
    pos m h1 h2 k_i = ((h1 + k_i * h2) % 2 ^ 64) % m := by
  unfold pos
  congr 1
  conv_lhs => rw [Nat.add_mod]
  conv_rhs => rw [Nat.add_mod]
  rw [Nat.mod_mod_of_dvd _ dvd_rfl]

/-! ### Helper lemmas about the hash kernel -/

theorem hash_kernel_state (sip : ℕ → List ℕ → ℕ) (encode : T → List ℕ)
    (f : BloomFilter T) (item : T) : (hash_kernel sip encode f item).2 = f :=
  rfl

theorem kernelPair_eq (sip : ℕ → List ℕ → ℕ) (encode : T → List ℕ)
    (f : BloomFilter T) (item : T) :
    kernelPair sip encode f item =
      (sip f.hasher1.seed (f.hasher1.written ++ encode item) % 2 ^ 64,
        sip f.hasher2.seed (f.hasher2.written ++ encode item) % 2 ^ 64) :=
  rfl

theorem kernelPair_congr (sip : ℕ → List ℕ → ℕ) (encode : T → List ℕ)
    {f g : BloomFilter T} (h1 : f.hasher1 = g.hasher1)
    (h2 : f.hasher2 = g.hasher2) (item : T) :
    kernelPair sip encode f item = kernelPair sip encode g item := by
  rw [kernelPair_eq, kernelPair_eq, h1, h2]

/-! ### Unfolding the operations -/

theorem insert_eq (sip : ℕ → List ℕ → ℕ) (encode : T → List ℕ)
    (f : BloomFilter T) (item : T) :
    insert sip encode f item =
      (insertAux f.optimal_m (kernelPair sip encode f item).1
          (kernelPair sip encode f item).2 f.bitmap 0 f.optimal_k).map
        (fun bm => ⟨bm, f.optimal_m, f.optimal_k, f.hasher1, f.hasher2⟩) := by
  cases h : insertAux f.optimal_m (kernelPair sip encode f item).1
      (kernelPair sip encode f item).2 f.bitmap 0 f.optimal_k <;>
    simp only [insert, hash_kernel, kernelPair] at * <;> rw [h] <;> rfl

theorem contains_eq (sip : ℕ → List ℕ → ℕ) (encode : T → List ℕ)
    (f : BloomFilter T) (item : T) :
    contains sip encode f item =
      (containsAux f.optimal_m (kernelPair sip encode f item).1
          (kernelPair sip encode f item).2 f.bitmap 0 f.optimal_k).map
        (fun b => (b, f)) := by
  cases h : containsAux f.optimal_m (kernelPair sip encode f item).1
      (kernelPair sip encode f item).2 f.bitmap 0 f.optimal_k <;>
    simp only [contains, hash_kernel, kernelPair] at * <;> rw [h] <;> rfl

/-! ### Lemmas about the insertion loop -/

theorem insertAux_length {m h1 h2 : ℕ} :
    ∀ {count k_i : ℕ} {bm bm2 : List Bool},
      insertAux m h1 h2 bm k_i count = some bm2 → bm2.length = bm.length := by
  intro count
  induction count with
  | zero =>
    intro k_i bm bm2 h
    simp only [insertAux, Option.some_inj] at h
    rw [← h]
  | succ n ih =>
    intro k_i bm bm2 h
    unfold insertAux at h
    cases hg : get_index m h1 h2 k_i with
    | none => rw [hg] at h; exact absurd h (by simp)
    | some index =>
      rw [hg] at h
      rw [ih h, List.length_set]

theorem insertAux_none_iff {m h1 h2 : ℕ} :
    ∀ {count k_i : ℕ} {bm : List Bool},
      insertAux m h1 h2 bm k_i count = none ↔ m = 0 ∧ 1 ≤ count := by
  intro count
  induction count with
  | zero => intro k_i bm; simp [insertAux]
  | succ n ih =>
    intro k_i bm
    unfold insertAux
    by_cases hm : m = 0
    · simp [get_index, hm]
    · rw [get_index_eq_pos hm]
      show insertAux m h1 h2 (bm.set (pos m h1 h2 k_i) true) (k_i + 1) n =
          none ↔ _
      rw [ih]
      simp [hm]

theorem insertAux_mono {m h1 h2 : ℕ} :
    ∀ {count k_i : ℕ} {bm bm2 : List Bool} {j : ℕ},
      insertAux m h1 h2 bm k_i count = some bm2 → bm[j]? = some true →
        bm2[j]? = some true := by
  intro count
  induction count with
  | zero =>
    intro k_i bm bm2 j h hj
    simp only [insertAux, Option.some_inj] at h
    rw [← h]; exact hj
  | succ n ih =>
    intro k_i bm bm2 j h hj
    unfold insertAux at h
    cases hg : get_index m h1 h2 k_i with
    | none => rw [hg] at h; exact absurd h (by simp)
    | some index =>
      rw [hg] at h
      refine ih h ?_
      rw [List.getElem?_set]
      by_cases hij : index = j
      · subst hij
        have hlt : index < bm.length := by
          rcases List.getElem?_eq_some_iff.1 hj with ⟨hl, _⟩
          exact hl
        simp [hlt]
      · simp [hij, hj]

theorem insertAux_sets {m h1 h2 : ℕ} (hm : m ≠ 0) :
    ∀ {count k_i : ℕ} {bm bm2 : List Bool},
      insertAux m h1 h2 bm k_i count = some bm2 →
      ∀ d < count, pos m h1 h2 (k_i + d) < bm.length →
        bm2[pos m h1 h2 (k_i + d)]? = some true := by
  intro count
  induction count with
  | zero => intro k_i bm bm2 _ d hd; omega
  | succ n ih =>
    intro k_i bm bm2 h d hd hlen
    rw [insertAux, get_index_eq_pos hm] at h
    rcases Nat.eq_zero_or_pos d with hd0 | hdpos
    · subst hd0
      refine insertAux_mono h ?_
      rw [Nat.add_zero] at hlen ⊢
      exact List.getElem?_set_self hlen
    · obtain ⟨d2, rfl⟩ : ∃ d2, d = d2 + 1 := ⟨d - 1, by omega⟩
      have := ih h d2 (by omega)
      rw [List.length_set] at this
      have heq : k_i + 1 + d2 = k_i + (d2 + 1) := by omega
      rw [heq] at this
      exact this hlen

theorem set_getElem?_self_eq {l : List Bool} {i : ℕ} {a : Bool}
    (h : l[i]? = some a) : l.set i a = l := by
  apply List.ext_getElem?
  intro j
  rw [List.getElem?_set]
  by_cases hij : i = j
  · subst hij
    rcases List.getElem?_eq_some_iff.1 h with ⟨hl, _⟩
    simp [hl, ← h]
  · simp [hij]

theorem insertAux_idem {m h1 h2 : ℕ} :
    ∀ {count k_i : ℕ} {bm bm2 : List Bool},
      insertAux m h1 h2 bm k_i count = some bm2 →
        insertAux m h1 h2 bm2 k_i count = some bm2 := by
  intro count
  induction count with
  | zero =>
    intro k_i bm bm2 h
    simp [insertAux]
  | succ n ih =>
    intro k_i bm bm2 h
    by_cases hm : m = 0
    · rw [insertAux_none_iff.2 ⟨hm, by omega⟩] at h
      exact absurd h (by simp)
    · rw [insertAux, get_index_eq_pos hm] at h ⊢
      replace h : insertAux m h1 h2 (bm.set (pos m h1 h2 k_i) true)
          (k_i + 1) n = some bm2 := h
      show insertAux m h1 h2 (bm2.set (pos m h1 h2 k_i) true) (k_i + 1) n =
        some bm2
      have hset : bm2.set (pos m h1 h2 k_i) true = bm2 := by
        by_cases hlt : pos m h1 h2 k_i < bm.length
        · exact set_getElem?_self_eq
            (insertAux_mono h (List.getElem?_set_self hlt))
        · apply List.set_eq_of_length_le
          have := insertAux_length h
          rw [this, List.length_set]
          omega
      rw [hset]
      exact ih h

/-! ### Lemmas about the lookup loop -/

theorem containsAux_none_iff {m h1 h2 : ℕ} {bm : List Bool} :
    ∀ {count k_i : ℕ},
      containsAux m h1 h2 bm k_i count = none ↔ m = 0 ∧ 1 ≤ count := by
  intro count
  induction count with
  | zero => intro k_i; simp [containsAux]
  | succ n ih =>
    intro k_i
    by_cases hm : m = 0
    · simp [containsAux, get_index, hm]
    · rw [containsAux, get_index_eq_pos hm]
      show (if bm[pos m h1 h2 k_i]? = some false then some false
          else containsAux m h1 h2 bm (k_i + 1) n) = none ↔ _
      by_cases hb : bm[pos m h1 h2 k_i]? = some false
      · simp [hb, hm]
      · rw [if_neg hb, ih]; simp [hm]

theorem containsAux_true_iff {m h1 h2 : ℕ} {bm : List Bool} (hm : m ≠ 0) :
    ∀ {count k_i : ℕ},
      containsAux m h1 h2 bm k_i count = some true ↔
        ∀ d < count, bm[pos m h1 h2 (k_i + d)]? ≠ some false := by
  intro count
  induction count with
  | zero => intro k_i; simp [containsAux]
  | succ n ih =>
    intro k_i
    rw [containsAux, get_index_eq_pos hm]
    show (if bm[pos m h1 h2 k_i]? = some false then some false
        else containsAux m h1 h2 bm (k_i + 1) n) = some true ↔ _
    by_cases hb : bm[pos m h1 h2 k_i]? = some false
    · rw [if_pos hb]
      constructor
      · intro hc; exact absurd hc (by simp)
      · intro hall
        have := hall 0 (by omega)
        rw [Nat.add_zero] at this
        exact absurd hb this
    · rw [if_neg hb, ih]
      constructor
      · intro hall d hd
        rcases Nat.eq_zero_or_pos d with rfl | hdpos
        · rwa [Nat.add_zero]
        · obtain ⟨d2, rfl⟩ : ∃ d2, d = d2 + 1 := ⟨d - 1, by omega⟩
          have := hall d2 (by omega)
          rwa [show k_i + 1 + d2 = k_i + (d2 + 1) by omega] at this
      · intro hall d hd
        have := hall (d + 1) (by omega)
        rwa [show k_i + (d + 1) = k_i + 1 + d by omega] at this

theorem containsAux_false_iff {m h1 h2 : ℕ} {bm : List Bool} (hm : m ≠ 0)
    {count k_i : ℕ} :
    containsAux m h1 h2 bm k_i count = some false ↔
      ∃ d < count, bm[pos m h1 h2 (k_i + d)]? = some false := by
  cases hc : containsAux m h1 h2 bm k_i count with
  | none => rw [containsAux_none_iff] at hc; exact absurd hc.1 hm
  | some b =>
    cases b with
    | false =>
      constructor
      · intro _
        by_contra hno
        push_neg at hno
        have : containsAux m h1 h2 bm k_i count = some true :=
          (containsAux_true_iff hm).2 hno
        rw [hc] at this
        exact absurd this (by simp)
      · intro _; rfl
    | true =>
      rw [containsAux_true_iff hm] at hc
      constructor
      · intro h; exact absurd h (by simp)
      · rintro ⟨d, hd, hfalse⟩; exact absurd hfalse (hc d hd)

/-! ### Lemmas about `insert` -/

theorem insert_none_iff (sip : ℕ → List ℕ → ℕ) (encode : T → List ℕ)
    (f : BloomFilter T) (item : T) :
    insert sip encode f item = none ↔ f.optimal_m = 0 ∧ 1 ≤ f.optimal_k := by
  rw [insert_eq, Option.map_eq_none', insertAux_none_iff]

theorem insert_spec {sip : ℕ → List ℕ → ℕ} {encode : T → List ℕ}
    {f f2 : BloomFilter T} {item : T}
    (h : insert sip encode f item = some f2) :
    f2.bitmap.length = f.bitmap.length ∧ f2.optimal_m = f.optimal_m ∧
      f2.optimal_k = f.optimal_k ∧ f2.hasher1 = f.hasher1 ∧
      f2.hasher2 = f.hasher2 ∧
      insertAux f.optimal_m (kernelPair sip encode f item).1
        (kernelPair sip encode f item).2 f.bitmap 0 f.optimal_k =
        some f2.bitmap := by
  rw [insert_eq, Option.map_eq_some'] at h
  rcases h with ⟨bm, hbm, hf2⟩
  subst hf2
  exact ⟨insertAux_length hbm, rfl, rfl, rfl, rfl, hbm⟩

theorem insert_isSome {sip : ℕ → List ℕ → ℕ} {encode : T → List ℕ}
    {f : BloomFilter T} (hm : f.optimal_m ≠ 0) (item : T) :
    ∃ f2, insert sip encode f item = some f2 := by
  cases hi : insert sip encode f item with
  | none => rw [insert_none_iff] at hi; exact absurd hi.1 hm
  | some f2 => exact ⟨f2, rfl⟩

theorem insert_mono {sip : ℕ → List ℕ → ℕ} {encode : T → List ℕ}
    {f f2 : BloomFilter T} {item : T} {j : ℕ}
    (h : insert sip encode f item = some f2)
    (hj : f.bitmap[j]? = some true) : f2.bitmap[j]? = some true :=
  insertAux_mono (insert_spec h).2.2.2.2.2 hj

theorem insert_wf {sip : ℕ → List ℕ → ℕ} {encode : T → List ℕ}
    {f f2 : BloomFilter T} {item : T}
    (h : insert sip encode f item = some f2) (hwf : Wf f) : Wf f2 := by
  have hs := insert_spec h
  unfold Wf at *
  rw [hs.1, hwf, hs.2.1]

theorem insert_sets {sip : ℕ → List ℕ → ℕ} {encode : T → List ℕ}
    {f f2 : BloomFilter T} {item : T}
    (hm : f.optimal_m ≠ 0) (hwf : Wf f)
    (h : insert sip encode f item = some f2) :
    ∀ d < f.optimal_k,
      f2.bitmap[pos f.optimal_m (kernelPair sip encode f item).1
        (kernelPair sip encode f item).2 d]? = some true := by
  intro d hd
  have := insertAux_sets hm (insert_spec h).2.2.2.2.2 d hd
    (by rw [hwf]; exact pos_lt (Nat.pos_of_ne_zero hm) _ _ _)
  simpa using this

theorem insert_idem {sip : ℕ → List ℕ → ℕ} {encode : T → List ℕ}
    {f f1 : BloomFilter T} {e : T}
    (h : insert sip encode f e = some f1) :
    insert sip encode f1 e = some f1 := by
  obtain ⟨bm1, m1, k1, a1, a2⟩ := f1
  obtain ⟨hlen, hm, hk, hh1, hh2, haux⟩ := insert_spec h
  dsimp only at hlen hm hk hh1 hh2 haux
  subst hm; subst hk; subst hh1; subst hh2
  rw [insert_eq, kernelPair_eq]
  dsimp only
  rw [kernelPair_eq] at haux
  rw [insertAux_idem haux]
  rfl

/-! ### Lemmas about `contains` -/

theorem contains_none_iff (sip : ℕ → List ℕ → ℕ) (encode : T → List ℕ)
    (f : BloomFilter T) (item : T) :
    contains sip encode f item = none ↔
      f.optimal_m = 0 ∧ 1 ≤ f.optimal_k := by
  rw [contains_eq, Option.map_eq_none', containsAux_none_iff]

theorem contains_state {sip : ℕ → List ℕ → ℕ} {encode : T → List ℕ}
    {f : BloomFilter T} {item : T} {p : Bool × BloomFilter T}
    (h : contains sip encode f item = some p) : p.2 = f := by
  rw [contains_eq, Option.map_eq_some'] at h
  rcases h with ⟨b, _, heq⟩
  rw [← heq]

theorem contains_iff_aux {sip : ℕ → List ℕ → ℕ} {encode : T → List ℕ}
    {f : BloomFilter T} {item : T} {b : Bool} :
    contains sip encode f item = some (b, f) ↔
      containsAux f.optimal_m (kernelPair sip encode f item).1
        (kernelPair sip encode f item).2 f.bitmap 0 f.optimal_k = some b := by
  rw [contains_eq]
  constructor
  · intro h
    rw [Option.map_eq_some'] at h
    rcases h with ⟨b2, hb2, heq⟩
    rw [Prod.mk.injEq] at heq
    rw [← heq.1]
    exact hb2
  · intro h
    rw [h, Option.map_some']

theorem contains_eq_true_of {sip : ℕ → List ℕ → ℕ} {encode : T → List ℕ}
    {f : BloomFilter T} {item : T} (hm : f.optimal_m ≠ 0)
    (hall : ∀ d < f.optimal_k,
      f.bitmap[pos f.optimal_m (kernelPair sip encode f item).1
        (kernelPair sip encode f item).2 d]? ≠ some false) :
    contains sip encode f item = some (true, f) := by
  rw [contains_iff_aux, containsAux_true_iff hm]
  intro d hd
  rw [Nat.zero_add]
  exact hall d hd

theorem contains_eq_false_of {sip : ℕ → List ℕ → ℕ} {encode : T → List ℕ}
    {f : BloomFilter T} {item : T} (hm : f.optimal_m ≠ 0)
    {d : ℕ} (hd : d < f.optimal_k)
    (hbit : f.bitmap[pos f.optimal_m (kernelPair sip encode f item).1
      (kernelPair sip encode f item).2 d]? = some false) :
    contains sip encode f item = some (false, f) := by
  rw [contains_iff_aux, containsAux_false_iff hm]
  refine ⟨d, hd, ?_⟩
  rwa [Nat.zero_add]

/-! ### Lemmas about sequences of operations -/

theorem insertAll_spec {sip : ℕ → List ℕ → ℕ} {encode : T → List ℕ} :
    ∀ {es : List T} {f f2 : BloomFilter T},
      insertAll sip encode f es = some f2 →
        f2.bitmap.length = f.bitmap.length ∧ f2.optimal_m = f.optimal_m ∧
          f2.optimal_k = f.optimal_k ∧ f2.hasher1 = f.hasher1 ∧
          f2.hasher2 = f.hasher2 ∧
          ∀ j : ℕ, f.bitmap[j]? = some true → f2.bitmap[j]? = some true := by
  intro es
  induction es with
  | nil =>
    intro f f2 h
    simp only [insertAll, Option.some_inj] at h
    subst h
    exact ⟨rfl, rfl, rfl, rfl, rfl, fun (j : ℕ) hj => hj⟩
  | cons e es ih =>
    intro f f2 h
    unfold insertAll at h
    cases hi : insert sip encode f e with
    | none => rw [hi] at h; exact absurd h (by simp)
    | some f1 =>
      rw [hi] at h
      have h1 := insert_spec hi
      have h2 := ih h
      exact ⟨h2.1.trans h1.1, h2.2.1.trans h1.2.1, h2.2.2.1.trans h1.2.2.1,
        h2.2.2.2.1.trans h1.2.2.2.1, h2.2.2.2.2.1.trans h1.2.2.2.2.1,
        fun j hj => h2.2.2.2.2.2 j (insert_mono hi hj)⟩

theorem insertAll_isSome {sip : ℕ → List ℕ → ℕ} {encode : T → List ℕ} :
    ∀ {es : List T} {f : BloomFilter T}, f.optimal_m ≠ 0 →
      ∃ f2, insertAll sip encode f es = some f2 := by
  intro es
  induction es with
  | nil => intro f _; exact ⟨f, rfl⟩
  | cons e es ih =>
    intro f hm
    obtain ⟨f1, hi⟩ := @insert_isSome T sip encode f hm e
    obtain ⟨f2, hall⟩ := ih (f := f1) (by rw [(insert_spec hi).2.1]; exact hm)
    refine ⟨f2, ?_⟩
    unfold insertAll
    rw [hi]
    exact hall

theorem runOps_hashers {sip : ℕ → List ℕ → ℕ} {encode : T → List ℕ} :
    ∀ {ops : List (FilterOp T)} {f f2 : BloomFilter T},
      runOps sip encode f ops = some f2 →
        f2.hasher1 = f.hasher1 ∧ f2.hasher2 = f.hasher2 := by
  intro ops
  induction ops with
  | nil =>
    intro f f2 h
    simp only [runOps, Option.some_inj] at h
    subst h
    exact ⟨rfl, rfl⟩
  | cons op ops ih =>
    intro f f2 h
    cases op with
    | ins e =>
      unfold runOps at h
      cases hi : insert sip encode f e with
      | none => rw [hi] at h; exact absurd h (by simp)
      | some f1 =>
        rw [hi] at h
        have h1 := insert_spec hi
        have h2 := ih h
        exact ⟨h2.1.trans h1.2.2.2.1, h2.2.trans h1.2.2.2.2.1⟩
    | query e =>
      unfold runOps at h
      cases hc : contains sip encode f e with
      | none => rw [hc] at h; exact absurd h (by simp)
      | some p =>
        rw [hc] at h
        obtain ⟨b, f1⟩ := p
        have h1 : f1 = f := contains_state hc
        subst h1
        exact ih h

theorem insertNTimes_fixed {sip : ℕ → List ℕ → ℕ} {encode : T → List ℕ}
    {f1 : BloomFilter T} {e : T} (h : insert sip encode f1 e = some f1) :
    ∀ n, insertNTimes sip encode f1 e n = some f1 := by
  intro n
  induction n with
  | zero => rfl
  | succ n ih =>
    unfold insertNTimes
    rw [h]
    exact ih

/-! ### Real-arithmetic facts about the sizing functions -/

theorem log_two_pos : 0 < Real.log 2 := Real.log_pos one_lt_two

theorem LN2_SQUARED_pos : 0 < LN2_SQUARED := mul_pos log_two_pos log_two_pos

theorem optimal_k_pos {fp : ℝ} (h0 : 0 < fp) (h1 : fp < 1) :
    1 ≤ optimal_k fp := by
  have hlog : Real.log fp < 0 := Real.log_neg h0 h1
  have hpos : 0 < (-1 * Real.log fp) / Real.log 2 :=
    div_pos (by linarith) log_two_pos
  exact Nat.ceil_pos.mpr hpos

theorem bitmap_size_pos {n : ℕ} {fp : ℝ} (hn : 1 ≤ n) (h0 : 0 < fp)
    (h1 : fp < 1) : 1 ≤ bitmap_size n fp := by
  have hlog : Real.log fp < 0 := Real.log_neg h0 h1
  have hn1 : (1 : ℝ) ≤ (n : ℝ) := by exact_mod_cast hn
  have hpos : 0 < (-1 * (n : ℝ) * Real.log fp) / LN2_SQUARED := by
    apply div_pos _ LN2_SQUARED_pos
    nlinarith
  exact Nat.ceil_pos.mpr hpos

theorem bitmap_size_zero_items (fp : ℝ) : bitmap_size 0 fp = 0 := by
  unfold bitmap_size
  norm_num

theorem optimal_k_half : optimal_k (1 / 2) = 1 := by
  unfold optimal_k
  rw [show ((1 : ℝ) / 2) = ((2 : ℝ))⁻¹ by norm_num, Real.log_inv,
    show (-1 : ℝ) * -Real.log 2 = Real.log 2 by ring,
    div_self (ne_of_gt log_two_pos)]
  exact Nat.ceil_one

theorem bitmap_size_int_eq {n : ℕ} {fp : ℝ} (hn : 1 ≤ n) (h0 : 0 < fp)
    (h1 : fp < 1) :
    (bitmap_size n fp : ℤ) =
      ⌈(-1 * (n : ℝ) * Real.log fp) / Real.log 2 ^ 2⌉ := by
  have hlog : Real.log fp < 0 := Real.log_neg h0 h1
  have hn1 : (1 : ℝ) ≤ (n : ℝ) := by exact_mod_cast hn
  have hpos : 0 < (-1 * (n : ℝ) * Real.log fp) / LN2_SQUARED := by
    apply div_pos _ LN2_SQUARED_pos
    nlinarith
  unfold bitmap_size
  rw [← Int.ceil_toNat, Int.toNat_of_nonneg (Int.ceil_nonneg hpos.le)]
  congr 1
  unfold LN2_SQUARED
  ring

theorem optimal_k_int_eq {fp : ℝ} (h0 : 0 < fp) (h1 : fp < 1) :
    (optimal_k fp : ℤ) = ⌈(-1 * Real.log fp) / Real.log 2⌉ := by
  have hlog : Real.log fp < 0 := Real.log_neg h0 h1
  have hpos : 0 < (-1 * Real.log fp) / Real.log 2 :=
    div_pos (by linarith) log_two_pos
  unfold optimal_k
  rw [← Int.ceil_toNat, Int.toNat_of_nonneg (Int.ceil_nonneg hpos.le)]

theorem log_128_div_125_le : Real.log (128 / 125) ≤ 3 / 125 := by
  linarith [Real.log_le_sub_one_of_pos (show (0 : ℝ) < 128 / 125 by norm_num)]

theorem le_log_128_div_125 : 3 / 128 ≤ Real.log (128 / 125) := by
  have h : Real.log (125 / 128) ≤ 125 / 128 - 1 :=
    Real.log_le_sub_one_of_pos (by norm_num)
  have hinv : Real.log (128 / 125) = -Real.log (125 / 128) := by
    rw [show ((128 : ℝ) / 125) = ((125 : ℝ) / 128)⁻¹ by norm_num, Real.log_inv]
  linarith

theorem log_ten_eq :
    Real.log 10 = (10 * Real.log 2 - Real.log (128 / 125)) / 3 := by
  have h1000 : Real.log 1000 = 3 * Real.log 10 := by
    rw [show (1000 : ℝ) = 10 ^ 3 by norm_num, Real.log_pow]
    push_cast
    ring
  have h1024 : Real.log 1024 = 10 * Real.log 2 := by
    rw [show (1024 : ℝ) = 2 ^ 10 by norm_num, Real.log_pow]
    push_cast
    ring
  have hdiv : Real.log 1000 = Real.log 1024 - Real.log (128 / 125) := by
    rw [← Real.log_div (by norm_num) (by norm_num)]
    norm_num
  linarith

theorem log_hundred_bounds :
    4.6049812 < Real.log 100 ∧ Real.log 100 < 4.6053563 := by
  have h100 : Real.log 100 = 2 * Real.log 10 := by
    rw [show (100 : ℝ) = 10 ^ 2 by norm_num, Real.log_pow]
    push_cast
    ring
  have hten := log_ten_eq
  have hub := log_128_div_125_le
  have hlb := le_log_128_div_125
  have hl2a := Real.log_two_gt_d9
  have hl2b := Real.log_two_lt_d9
  constructor
  · linarith
  · linarith

theorem bitmap_size_100 : bitmap_size 100 (1 / 100) = 959 := by
  unfold bitmap_size LN2_SQUARED
  rw [show ((1 : ℝ) / 100) = ((100 : ℝ))⁻¹ by norm_num, Real.log_inv,
    Nat.ceil_eq_iff (by norm_num)]
  have hlog := log_hundred_bounds
  have hl2a := Real.log_two_gt_d9
  have hl2b := Real.log_two_lt_d9
  have hl2pos := log_two_pos
  have hsqb : Real.log 2 * Real.log 2 < 0.6931471808 * 0.6931471808 :=
    mul_lt_mul'' hl2b hl2b hl2pos.le hl2pos.le
  have hsqa : 0.6931471803 * 0.6931471803 < Real.log 2 * Real.log 2 :=
    mul_lt_mul'' hl2a hl2a (by norm_num) (by norm_num)
  constructor
  · rw [lt_div_iff₀ (mul_pos log_two_pos log_two_pos)]
    push_cast
    nlinarith [hlog.1, hsqb]
  · rw [div_le_iff₀ (mul_pos log_two_pos log_two_pos)]
    push_cast
    nlinarith [hlog.2, hsqa]

theorem optimal_k_100 : optimal_k (1 / 100) = 7 := by
  unfold optimal_k
  rw [show ((1 : ℝ) / 100) = ((100 : ℝ))⁻¹ by norm_num, Real.log_inv,
    Nat.ceil_eq_iff (by norm_num)]
  have hlog := log_hundred_bounds
  have hl2a := Real.log_two_gt_d9
  have hl2b := Real.log_two_lt_d9
  constructor
  · rw [lt_div_iff₀ log_two_pos]
    push_cast
    nlinarith [hlog.1]
  · rw [div_le_iff₀ log_two_pos]
    push_cast
    nlinarith [hlog.2]

/-! ### Facts about `new` -/

theorem new_wf (T : Type) (items : ℕ) (fp : ℝ) (s1 s2 : ℕ) :
    Wf (new T items fp s1 s2) := by
  unfold Wf new
  simp

theorem new_bitmap_getElem (T : Type) (items : ℕ) (fp : ℝ) (s1 s2 : ℕ)
    {j : ℕ} (hj : j < bitmap_size items fp) :
    (new T items fp s1 s2).bitmap[j]? = some false := by
  unfold new
  simp [List.getElem?_replicate, hj]

/-! ### The specification claims -/

/-- Claim C1 — no false negatives: for every filter constructed by `new`
with `items_count ≥ 1` and `fp_rate ∈ (0,1)`, once `insert e` has run,
any further sequence of insertions (of arbitrary items, in particular of
other items) leaves `contains e` returning `true`; no call on the way
panics. -/
theorem insert_then_contains_true {T : Type} (sip : ℕ → List ℕ → ℕ)
    (encode : T → List ℕ) (items : ℕ) (fp : ℝ) (s1 s2 : ℕ)
    (hn : 1 ≤ items) (h0 : 0 < fp) (h1 : fp < 1) (e : T) (es : List T) :
    ∃ f1 f2, insert sip encode (new T items fp s1 s2) e = some f1 ∧
      insertAll sip encode f1 es = some f2 ∧
      contains sip encode f2 e = some (true, f2) := by
  have hmpos := bitmap_size_pos hn h0 h1
  have hm0 : (new T items fp s1 s2).optimal_m ≠ 0 := by
    show bitmap_size items fp ≠ 0
    omega
  obtain ⟨f1, hi⟩ := @insert_isSome T sip encode (new T items fp s1 s2) hm0 e
  have hwf0 : Wf (new T items fp s1 s2) := new_wf T items fp s1 s2
  have hs1 := insert_spec hi
  have hm1 : f1.optimal_m ≠ 0 := by rw [hs1.2.1]; exact hm0
  obtain ⟨f2, hall⟩ := @insertAll_isSome T sip encode es f1 hm1
  refine ⟨f1, f2, hi, hall, ?_⟩
  have hs2 := insertAll_spec hall
  have hbits1 := insert_sets hm0 hwf0 hi
  have hbits2 : ∀ d < (new T items fp s1 s2).optimal_k,
      f2.bitmap[pos (new T items fp s1 s2).optimal_m
        (kernelPair sip encode (new T items fp s1 s2) e).1
        (kernelPair sip encode (new T items fp s1 s2) e).2 d]? =
        some true :=
    fun d hd => hs2.2.2.2.2.2 _ (hbits1 d hd)
  have hker : kernelPair sip encode f2 e =
      kernelPair sip encode (new T items fp s1 s2) e :=
    kernelPair_congr sip encode (hs2.2.2.2.1.trans hs1.2.2.2.1)
      (hs2.2.2.2.2.1.trans hs1.2.2.2.2.1) e
  have hm2 : f2.optimal_m ≠ 0 := by rw [hs2.2.1]; exact hm1
  apply contains_eq_true_of hm2
  intro d hd
  rw [hker, hs2.2.1, hs1.2.1]
  have hk2 : f2.optimal_k = (new T items fp s1 s2).optimal_k :=
    hs2.2.2.1.trans hs1.2.2.1
  rw [hbits2 d (by rw [← hk2]; exact hd)]
  simp

/-- Witness for C1 at a concrete instance. -/
theorem insert_then_contains_true_witness :
    1 ≤ 1 ∧ (0 : ℝ) < 1 / 2 ∧ (1 : ℝ) / 2 < 1 ∧
      ∃ f1 f2,
        insert sipExample encExample (new ℕ 1 (1 / 2) 0 1) 5 = some f1 ∧
        insertAll sipExample encExample f1 [7, 8] = some f2 ∧
        contains sipExample encExample f2 5 = some (true, f2) :=
  ⟨le_refl 1, by norm_num, by norm_num,
    insert_then_contains_true sipExample encExample 1 (1 / 2) 0 1
      (le_refl 1) (by norm_num) (by norm_num) 5 [7, 8]⟩

/-- Claim C2 — characterization of `contains`: on a well-formed filter
with `optimal_m ≥ 1`, `contains e` returns `false` iff at least one of the
`optimal_k` derived bit positions (computed from the hash kernel of `e`
with wrapping 64-bit arithmetic, reduced mod `optimal_m`) holds a `0` bit,
and returns `true` iff all of them hold a `1` bit. -/
theorem contains_characterization {T : Type} (sip : ℕ → List ℕ → ℕ)
    (encode : T → List ℕ) (f : BloomFilter T) (e : T)
    (hm : 1 ≤ f.optimal_m) (hwf : Wf f) :
    (contains sip encode f e = some (false, f) ↔
      ∃ k_i < f.optimal_k,
        f.bitmap[pos f.optimal_m (kernelPair sip encode f e).1
          (kernelPair sip encode f e).2 k_i]? = some false) ∧
    (contains sip encode f e = some (true, f) ↔
      ∀ k_i < f.optimal_k,
        f.bitmap[pos f.optimal_m (kernelPair sip encode f e).1
          (kernelPair sip encode f e).2 k_i]? = some true) := by
  have hm0 : f.optimal_m ≠ 0 := by omega
  constructor
  · rw [contains_iff_aux, containsAux_false_iff hm0]
    constructor
    · rintro ⟨d, hd, hbit⟩
      exact ⟨d, hd, by rwa [Nat.zero_add] at hbit⟩
    · rintro ⟨d, hd, hbit⟩
      exact ⟨d, hd, by rwa [Nat.zero_add]⟩
  · rw [contains_iff_aux, containsAux_true_iff hm0]
    constructor
    · intro hall k_i hk
      have hne := hall k_i hk
      rw [Nat.zero_add] at hne
      have hlt : pos f.optimal_m (kernelPair sip encode f e).1
          (kernelPair sip encode f e).2 k_i < f.bitmap.length := by
        rw [hwf]
        exact pos_lt (by omega) _ _ _
      have hsome := List.getElem?_eq_getElem hlt
      cases hb : f.bitmap[pos f.optimal_m (kernelPair sip encode f e).1
          (kernelPair sip encode f e).2 k_i] with
      | false => rw [hb] at hsome; exact absurd hsome hne
      | true => rw [hb] at hsome; exact hsome
    · intro hall d hd
      rw [Nat.zero_add, hall d hd]
      simp

/-- Witness for C2 at a concrete instance. -/
theorem contains_characterization_witness :
    1 ≤ (⟨[true, false], 2, 1, ⟨0, []⟩, ⟨1, []⟩⟩ :
        BloomFilter ℕ).optimal_m ∧
    Wf (⟨[true, false], 2, 1, ⟨0, []⟩, ⟨1, []⟩⟩ : BloomFilter ℕ) ∧
    ((contains sipExample encExample
          (⟨[true, false], 2, 1, ⟨0, []⟩, ⟨1, []⟩⟩ : BloomFilter ℕ) 3 =
        some (false, ⟨[true, false], 2, 1, ⟨0, []⟩, ⟨1, []⟩⟩) ↔
      ∃ k_i < (⟨[true, false], 2, 1, ⟨0, []⟩, ⟨1, []⟩⟩ :
          BloomFilter ℕ).optimal_k,
        (⟨[true, false], 2, 1, ⟨0, []⟩, ⟨1, []⟩⟩ :
          BloomFilter ℕ).bitmap[pos 2
            (kernelPair sipExample encExample
              (⟨[true, false], 2, 1, ⟨0, []⟩, ⟨1, []⟩⟩ : BloomFilter ℕ) 3).1
            (kernelPair sipExample encExample
              (⟨[true, false], 2, 1, ⟨0, []⟩, ⟨1, []⟩⟩ : BloomFilter ℕ) 3).2
            k_i]? = some false) ∧
    (contains sipExample encExample
          (⟨[true, false], 2, 1, ⟨0, []⟩, ⟨1, []⟩⟩ : BloomFilter ℕ) 3 =
        some (true, ⟨[true, false], 2, 1, ⟨0, []⟩, ⟨1, []⟩⟩) ↔
      ∀ k_i < (⟨[true, false], 2, 1, ⟨0, []⟩, ⟨1, []⟩⟩ :
          BloomFilter ℕ).optimal_k,
        (⟨[true, false], 2, 1, ⟨0, []⟩, ⟨1, []⟩⟩ :
          BloomFilter ℕ).bitmap[pos 2
            (kernelPair sipExample encExample
              (⟨[true, false], 2, 1, ⟨0, []⟩, ⟨1, []⟩⟩ : BloomFilter ℕ) 3).1
            (kernelPair sipExample encExample
              (⟨[true, false], 2, 1, ⟨0, []⟩, ⟨1, []⟩⟩ : BloomFilter ℕ) 3).2
            k_i]? = some true)) :=
  ⟨by decide, rfl,
    contains_characterization sipExample encExample
      ⟨[true, false], 2, 1, ⟨0, []⟩, ⟨1, []⟩⟩ 3 (by decide) rfl⟩

/-- Claim C3 — evidence of the divergence between the fail-fast policy and
the code: `new` performs no validation at all.  At the pathological input
`items_count = 0`, `fp_rate = 1/2` it happily returns a filter — with an
empty bit array, `optimal_m = 0` and `optimal_k = 1` — instead of
rejecting the configuration; the filter is unusable, as its very first
`insert` or `contains` panics with a remainder-by-zero. -/
theorem new_accepts_degenerate_config :
    (new ℕ 0 (1 / 2) 1 2).optimal_m = 0 ∧
    (new ℕ 0 (1 / 2) 1 2).bitmap = [] ∧
    (new ℕ 0 (1 / 2) 1 2).optimal_k = 1 ∧
    insert sipExample encExample (new ℕ 0 (1 / 2) 1 2) 5 = none ∧
    contains sipExample encExample (new ℕ 0 (1 / 2) 1 2) 5 = none := by
  have hm : (new ℕ 0 (1 / 2) 1 2).optimal_m = 0 := bitmap_size_zero_items _
  have hk : (new ℕ 0 (1 / 2) 1 2).optimal_k = 1 := optimal_k_half
  refine ⟨hm, ?_, hk, ?_, ?_⟩
  · show List.replicate (bitmap_size 0 (1 / 2)) false = []
    rw [bitmap_size_zero_items]
    rfl
  · rw [insert_none_iff]
    exact ⟨hm, by omega⟩
  · rw [contains_none_iff]
    exact ⟨hm, by omega⟩

/-- Claim C4 — sizing formulas: for every accepted configuration
(`items_count ≥ 1`, `fp_rate ∈ (0,1)`) the computed parameters equal the
closed-form ceilings `⌈-items_count * ln fp / (ln 2)^2⌉` and
`⌈-ln fp / ln 2⌉`, and at `items_count = 100`, `fp_rate = 1/100` they
evaluate to `959` and `7` — the values of those closed forms. -/
theorem sizing_formulas {n : ℕ} {fp : ℝ} (hn : 1 ≤ n) (h0 : 0 < fp)
    (h1 : fp < 1) :
    (bitmap_size n fp : ℤ) =
        ⌈(-1 * (n : ℝ) * Real.log fp) / Real.log 2 ^ 2⌉ ∧
      (optimal_k fp : ℤ) = ⌈(-1 * Real.log fp) / Real.log 2⌉ ∧
      bitmap_size 100 (1 / 100) = 959 ∧ optimal_k (1 / 100) = 7 :=
  ⟨bitmap_size_int_eq hn h0 h1, optimal_k_int_eq h0 h1,
    bitmap_size_100, optimal_k_100⟩

/-- Witness for C4 at the concrete configuration from the claim. -/
theorem sizing_formulas_witness :
    (1 ≤ 100 ∧ (0 : ℝ) < 1 / 100 ∧ (1 : ℝ) / 100 < 1) ∧
      ((bitmap_size 100 (1 / 100) : ℤ) =
          ⌈(-1 * ((100 : ℕ) : ℝ) * Real.log (1 / 100)) / Real.log 2 ^ 2⌉ ∧
        (optimal_k (1 / 100) : ℤ) =
          ⌈(-1 * Real.log (1 / 100)) / Real.log 2⌉ ∧
        bitmap_size 100 (1 / 100) = 959 ∧ optimal_k (1 / 100) = 7) :=
  ⟨⟨by norm_num, by norm_num, by norm_num⟩,
    sizing_formulas (by norm_num) (by norm_num) (by norm_num)⟩

/-- Claim C5 — index bound with wraparound-safe arithmetic: on a filter
with `optimal_m ≥ 1`, for all 64-bit `h1`, `h2` and every `k_i` below
`optimal_k`, `get_index` returns (without panicking) exactly
`((h1 + k_i * h2) mod 2^64) mod optimal_m` — the wrapping sum — which
always lies below `optimal_m`; on a well-formed filter the index is
therefore below the bitmap length, so the `None` (out-of-range) arm of
the lookup in `contains` is unreachable and `insert`'s `set` is in
bounds. -/
theorem get_index_in_range {T : Type} (f : BloomFilter T)
    (hm : 1 ≤ f.optimal_m) (h1 h2 k_i : ℕ)
    (_hh1 : h1 < 2 ^ 64) (_hh2 : h2 < 2 ^ 64) (_hk : k_i < f.optimal_k) :
    get_index f.optimal_m h1 h2 k_i =
        some (((h1 + k_i * h2) % 2 ^ 64) % f.optimal_m) ∧
      ((h1 + k_i * h2) % 2 ^ 64) % f.optimal_m < f.optimal_m ∧
      (Wf f →
        ((h1 + k_i * h2) % 2 ^ 64) % f.optimal_m < f.bitmap.length ∧
        (f.bitmap[((h1 + k_i * h2) % 2 ^ 64) % f.optimal_m]?).isSome) := by
  have hm0 : f.optimal_m ≠ 0 := by omega
  refine ⟨?_, ?_, ?_⟩
  · rw [get_index_eq_pos hm0, pos_eq_wrap]
  · exact Nat.mod_lt _ (by omega)
  · intro hwf
    have hlt : ((h1 + k_i * h2) % 2 ^ 64) % f.optimal_m <
        f.bitmap.length := by
      rw [hwf]
      exact Nat.mod_lt _ (by omega)
    exact ⟨hlt, by rw [List.getElem?_eq_getElem hlt]; rfl⟩

/-- Witness for C5 at a concrete instance. -/
theorem get_index_in_range_witness :
    (1 ≤ (⟨[false, false, false], 3, 2, ⟨1, []⟩, ⟨2, []⟩⟩ :
        BloomFilter ℕ).optimal_m ∧
      5 < 2 ^ 64 ∧ 6 < 2 ^ 64 ∧
      1 < (⟨[false, false, false], 3, 2, ⟨1, []⟩, ⟨2, []⟩⟩ :
        BloomFilter ℕ).optimal_k) ∧
    (get_index 3 5 6 1 = some (((5 + 1 * 6) % 2 ^ 64) % 3) ∧
      ((5 + 1 * 6) % 2 ^ 64) % 3 < 3 ∧
      (Wf (⟨[false, false, false], 3, 2, ⟨1, []⟩, ⟨2, []⟩⟩ :
          BloomFilter ℕ) →
        ((5 + 1 * 6) % 2 ^ 64) % 3 <
          (⟨[false, false, false], 3, 2, ⟨1, []⟩, ⟨2, []⟩⟩ :
            BloomFilter ℕ).bitmap.length ∧
        ((⟨[false, false, false], 3, 2, ⟨1, []⟩, ⟨2, []⟩⟩ :
          BloomFilter ℕ).bitmap[((5 + 1 * 6) % 2 ^ 64) % 3]?).isSome)) :=
  ⟨⟨by decide, by norm_num, by norm_num, by decide⟩,
    get_index_in_range ⟨[false, false, false], 3, 2, ⟨1, []⟩, ⟨2, []⟩⟩
      (by decide) 5 6 1 (by norm_num) (by norm_num) (by decide)⟩

/-- Claim C6 — idempotence of `insert`: calling `insert e` any `n ≥ 1`
times (in particular two or more times) produces exactly the same result
— same bit array and same panic behaviour — as calling it once, and
therefore the same `contains` results for every item afterwards. -/
theorem insert_idempotent {T : Type} (sip : ℕ → List ℕ → ℕ)
    (encode : T → List ℕ) (f : BloomFilter T) (e : T) {n : ℕ}
    (hn : 1 ≤ n) :
    insertNTimes sip encode f e n = insert sip encode f e ∧
      ∀ (f1 f2 : BloomFilter T) (e2 : T),
        insertNTimes sip encode f e n = some f1 →
        insert sip encode f e = some f2 →
        contains sip encode f1 e2 = contains sip encode f2 e2 := by
  have hmain : insertNTimes sip encode f e n = insert sip encode f e := by
    obtain ⟨n2, rfl⟩ : ∃ n2, n = n2 + 1 := ⟨n - 1, by omega⟩
    unfold insertNTimes
    cases hi : insert sip encode f e with
    | none => rfl
    | some f1 =>
      show insertNTimes sip encode f1 e n2 = some f1
      exact insertNTimes_fixed (insert_idem hi) n2
  refine ⟨hmain, fun f1 f2 e2 hx hy => ?_⟩
  rw [hmain, hy, Option.some_inj] at hx
  rw [hx]

/-- Witness for C6 at a concrete instance: three inserts of the same item
equal one. -/
theorem insert_idempotent_witness :
    1 ≤ 3 ∧
      (insertNTimes sipExample encExample
          (⟨[false, false, false], 3, 2, ⟨1, []⟩, ⟨2, []⟩⟩ : BloomFilter ℕ)
          5 3 =
        insert sipExample encExample
          ⟨[false, false, false], 3, 2, ⟨1, []⟩, ⟨2, []⟩⟩ 5 ∧
      ∀ (f1 f2 : BloomFilter ℕ) (e2 : ℕ),
        insertNTimes sipExample encExample
          ⟨[false, false, false], 3, 2, ⟨1, []⟩, ⟨2, []⟩⟩ 5 3 = some f1 →
        insert sipExample encExample
          ⟨[false, false, false], 3, 2, ⟨1, []⟩, ⟨2, []⟩⟩ 5 = some f2 →
        contains sipExample encExample f1 e2 =
          contains sipExample encExample f2 e2) :=
  ⟨by decide,
    insert_idempotent sipExample encExample
      ⟨[false, false, false], 3, 2, ⟨1, []⟩, ⟨2, []⟩⟩ 5 (by decide)⟩

/-- Claim C7 — hash-kernel determinism across calls: computing the hash
kernel leaves the filter — in particular its two stored base hashers —
unchanged, and consequently after any sequence of interleaved `insert` and
`contains` calls the kernel of the same item is the identical pair
`(h1, h2)`. -/
theorem hash_kernel_stateless {T : Type} (sip : ℕ → List ℕ → ℕ)
    (encode : T → List ℕ) (f : BloomFilter T) (e : T) :
    (hash_kernel sip encode f e).2 = f ∧
      ∀ (ops : List (FilterOp T)) (f2 : BloomFilter T),
        runOps sip encode f ops = some f2 →
        kernelPair sip encode f2 e = kernelPair sip encode f e := by
  refine ⟨rfl, fun ops f2 h => ?_⟩
  have hh := runOps_hashers h
  exact kernelPair_congr sip encode hh.1 hh.2 e

/-- Witness for C7 at a concrete instance: an insertion followed by a
query, after which the kernel of item `5` is unchanged. -/
theorem hash_kernel_stateless_witness :
    runOps sipExample encExample
        (⟨[false, false, false], 3, 2, ⟨1, []⟩, ⟨2, []⟩⟩ : BloomFilter ℕ)
        [FilterOp.ins 7, FilterOp.query 2] =
      some ⟨[false, false, true], 3, 2, ⟨1, []⟩, ⟨2, []⟩⟩ ∧
    kernelPair sipExample encExample
        (⟨[false, false, true], 3, 2, ⟨1, []⟩, ⟨2, []⟩⟩ : BloomFilter ℕ)
        5 =
      kernelPair sipExample encExample
        (⟨[false, false, false], 3, 2, ⟨1, []⟩, ⟨2, []⟩⟩ : BloomFilter ℕ)
        5 :=
  ⟨rfl,
    (hash_kernel_stateless sipExample encExample
        ⟨[false, false, false], 3, 2, ⟨1, []⟩, ⟨2, []⟩⟩ 5).2
      [FilterOp.ins 7, FilterOp.query 2]
      ⟨[false, false, true], 3, 2, ⟨1, []⟩, ⟨2, []⟩⟩ rfl⟩

/-- Claim C8 — empty-filter correctness: a filter freshly constructed with
`items_count ≥ 1` and `fp_rate ∈ (0,1)` has `optimal_m ≥ 1` (a zeroed bit
array of that length) and `optimal_k ≥ 1`, and `contains e` returns
`false` for every item `e` before any insertion. -/
theorem empty_filter_contains_false {T : Type} (sip : ℕ → List ℕ → ℕ)
    (encode : T → List ℕ) (items : ℕ) (fp : ℝ) (s1 s2 : ℕ)
    (hn : 1 ≤ items) (h0 : 0 < fp) (h1 : fp < 1) :
    1 ≤ (new T items fp s1 s2).optimal_m ∧
      1 ≤ (new T items fp s1 s2).optimal_k ∧
      ∀ e, contains sip encode (new T items fp s1 s2) e =
        some (false, new T items fp s1 s2) := by
  have hm : 1 ≤ bitmap_size items fp := bitmap_size_pos hn h0 h1
  have hk : 1 ≤ optimal_k fp := optimal_k_pos h0 h1
  refine ⟨hm, hk, fun e => ?_⟩
  have hm0 : (new T items fp s1 s2).optimal_m ≠ 0 := by
    show bitmap_size items fp ≠ 0
    omega
  have hbit : (new T items fp s1 s2).bitmap[pos
      (new T items fp s1 s2).optimal_m
      (kernelPair sip encode (new T items fp s1 s2) e).1
      (kernelPair sip encode (new T items fp s1 s2) e).2 0]? =
      some false := by
    apply new_bitmap_getElem
    exact pos_lt hm _ _ _
  exact @contains_eq_false_of T sip encode (new T items fp s1 s2) e hm0 0
    hk hbit

/-- Witness for C8 at a concrete instance. -/
theorem empty_filter_contains_false_witness :
    (1 ≤ 1 ∧ (0 : ℝ) < 1 / 2 ∧ (1 : ℝ) / 2 < 1) ∧
      (1 ≤ (new ℕ 1 (1 / 2) 0 1).optimal_m ∧
        1 ≤ (new ℕ 1 (1 / 2) 0 1).optimal_k ∧
        ∀ e, contains sipExample encExample (new ℕ 1 (1 / 2) 0 1) e =
          some (false, new ℕ 1 (1 / 2) 0 1)) :=
  ⟨⟨le_refl 1, by norm_num, by norm_num⟩,
    empty_filter_contains_false sipExample encExample 1 (1 / 2) 0 1
      (le_refl 1) (by norm_num) (by norm_num)⟩

/-- Claim C9 — `contains` performs no mutation: although the method takes
the filter by mutable reference, its post-state is the input filter, field
by field: bitmap, `optimal_m`, `optimal_k` and both base hashers. -/
theorem contains_no_mutation {T : Type} (sip : ℕ → List ℕ → ℕ)
    (encode : T → List ℕ) (f : BloomFilter T) (e : T) (b : Bool)
    (f2 : BloomFilter T) (h : contains sip encode f e = some (b, f2)) :
    f2 = f ∧ f2.bitmap = f.bitmap ∧ f2.optimal_m = f.optimal_m ∧
      f2.optimal_k = f.optimal_k ∧ f2.hasher1 = f.hasher1 ∧
      f2.hasher2 = f.hasher2 := by
  have hf : f2 = f := contains_state h
  exact ⟨hf, by rw [hf], by rw [hf], by rw [hf], by rw [hf], by rw [hf]⟩

/-- Witness for C9 at a concrete instance. -/
theorem contains_no_mutation_witness :
    contains sipExample encExample
        (⟨[false, false, false], 3, 2, ⟨1, []⟩, ⟨2, []⟩⟩ : BloomFilter ℕ)
        3 =
      some (false, ⟨[false, false, false], 3, 2, ⟨1, []⟩, ⟨2, []⟩⟩) ∧
    (⟨[false, false, false], 3, 2, ⟨1, []⟩, ⟨2, []⟩⟩ : BloomFilter ℕ) =
      ⟨[false, false, false], 3, 2, ⟨1, []⟩, ⟨2, []⟩⟩ :=
  ⟨rfl,
    (contains_no_mutation sipExample encExample
        ⟨[false, false, false], 3, 2, ⟨1, []⟩, ⟨2, []⟩⟩ 3 false
        ⟨[false, false, false], 3, 2, ⟨1, []⟩, ⟨2, []⟩⟩ rfl).1⟩

/-- Claim C10 — implicit degenerate-configuration behaviour: `new` never
rejects its inputs; with `items_count = 0` and any `fp_rate ∈ (0,1)` it
returns a filter with an empty bit array (`optimal_m = 0`) but
`optimal_k ≥ 1`, every `insert` and `contains` call on that filter panics
(remainder-by-zero, modelled as `none`), and in general the panic is
reachable exactly when `optimal_m = 0` and `optimal_k ≥ 1`. -/
theorem degenerate_construction_panics {T : Type} (sip : ℕ → List ℕ → ℕ)
    (encode : T → List ℕ) (fp : ℝ) (s1 s2 : ℕ) (h0 : 0 < fp)
    (h1 : fp < 1) :
    (new T 0 fp s1 s2).optimal_m = 0 ∧
      (new T 0 fp s1 s2).bitmap = [] ∧
      1 ≤ (new T 0 fp s1 s2).optimal_k ∧
      (∀ e, insert sip encode (new T 0 fp s1 s2) e = none ∧
        contains sip encode (new T 0 fp s1 s2) e = none) ∧
      (∀ (f : BloomFilter T) (e : T),
        (insert sip encode f e = none ↔
          f.optimal_m = 0 ∧ 1 ≤ f.optimal_k) ∧
        (contains sip encode f e = none ↔
          f.optimal_m = 0 ∧ 1 ≤ f.optimal_k)) := by
  have hm : (new T 0 fp s1 s2).optimal_m = 0 := bitmap_size_zero_items fp
  have hk : 1 ≤ (new T 0 fp s1 s2).optimal_k := optimal_k_pos h0 h1
  refine ⟨hm, ?_, hk, fun e => ⟨?_, ?_⟩,
    fun f e => ⟨insert_none_iff sip encode f e,
      contains_none_iff sip encode f e⟩⟩
  · show List.replicate (bitmap_size 0 fp) false = []
    rw [bitmap_size_zero_items]
    rfl
  · rw [insert_none_iff]
    exact ⟨hm, hk⟩
  · rw [contains_none_iff]
    exact ⟨hm, hk⟩

/-- Witness for C10 at the concrete rate `1/2`. -/
theorem degenerate_construction_panics_witness :
    ((0 : ℝ) < 1 / 2 ∧ (1 : ℝ) / 2 < 1) ∧
      ((new ℕ 0 (1 / 2) 1 2).optimal_m = 0 ∧
        (new ℕ 0 (1 / 2) 1 2).bitmap = [] ∧
        1 ≤ (new ℕ 0 (1 / 2) 1 2).optimal_k ∧
        (∀ e, insert sipExample encExample (new ℕ 0 (1 / 2) 1 2) e =
            none ∧
          contains sipExample encExample (new ℕ 0 (1 / 2) 1 2) e = none) ∧
        (∀ (f : BloomFilter ℕ) (e : ℕ),
          (insert sipExample encExample f e = none ↔
            f.optimal_m = 0 ∧ 1 ≤ f.optimal_k) ∧
          (contains sipExample encExample f e = none ↔
            f.optimal_m = 0 ∧ 1 ≤ f.optimal_k))) :=
  ⟨⟨by norm_num, by norm_num⟩,
    degenerate_construction_panics sipExample encExample (1 / 2) 1 2
      (by norm_num) (by norm_num)⟩

end BloomFilterSpec
